import Mathlib

/-!
# Verification of the nextellar scaffold-and-configure pipeline

A shallow embedding of the core of the `nextellar` CLI
(`src/lib/scaffold.ts` and `src/lib/install.ts`), together with proofs of
the specified properties: precondition checks before any write, the
recursive template copy with basename exclusions, placeholder
substitution via sequential literal `replaceAll`, package-manager
detection priority, and the install outcome/diagnostic-log contract.

Strings are modelled as lists of characters (`Str`); the filesystem as an
explicit tree value threaded through the functions; the spawned install
process and the log write as explicit outcome parameters.
-/

namespace Nextellar

/-! ## Character-list strings and JS-style primitives -/

/-- Strings as lists of characters. -/
abbrev Str := List Char

/-- `String.data` as an abbreviation for building `Str` literals. -/
def strOf (s : String) : Str := s.data

/-- JS `String.prototype.startsWith` on character lists. -/
def isPfxB : Str → Str → Bool
  | [], _ => true
  | _ :: _, [] => false
  | p :: ps, c :: cs => p == c && isPfxB ps cs

/-- JS `String.prototype.includes` on character lists: `pat` occurs as a
contiguous substring of `s`. -/
def hasInfix (s pat : Str) : Bool :=
  match s with
  | [] => isPfxB pat []
  | _ :: t => isPfxB pat s || hasInfix t pat

/-- `p` is a prefix of `s`. -/
def IsPfx (p s : Str) : Prop := ∃ t, p ++ t = s

/-- `p` is a suffix of `s`. -/
def IsSfx (p s : Str) : Prop := ∃ t, t ++ p = s

/-- `p` occurs as a contiguous substring of `s`. -/
def IsInf (p s : Str) : Prop := ∃ u v, u ++ p ++ v = s

theorem isPfxB_iff : ∀ p s : Str, isPfxB p s = true ↔ IsPfx p s := by
  intro p
  induction p with
  | nil => intro s; simp [isPfxB, IsPfx]
  | cons a ps ih =>
    intro s
    cases s with
    | nil =>
      simp only [isPfxB, IsPfx]
      constructor
      · intro h; cases h
      · rintro ⟨t, ht⟩; cases ht
    | cons c cs =>
      simp only [isPfxB, Bool.and_eq_true, beq_iff_eq, ih, IsPfx]
      constructor
      · rintro ⟨rfl, t, rfl⟩; exact ⟨t, rfl⟩
      · rintro ⟨t, ht⟩
        injection ht with h1 h2
        exact ⟨h1, t, h2⟩

theorem hasInfix_iff : ∀ s pat : Str, hasInfix s pat = true ↔ IsInf pat s := by
  intro s
  induction s with
  | nil =>
    intro pat
    simp only [hasInfix, isPfxB_iff, IsPfx, IsInf]
    constructor
    · rintro ⟨t, ht⟩
      cases List.append_eq_nil.mp ht with
      | intro h1 h2 => exact ⟨[], [], by simp [h1]⟩
    · rintro ⟨u, v, huv⟩
      have h := List.append_eq_nil.mp huv
      have h2 := List.append_eq_nil.mp h.1
      exact ⟨[], by simp [h2.2]⟩
  | cons c cs ih =>
    intro pat
    simp only [hasInfix, Bool.or_eq_true, isPfxB_iff, IsPfx, ih, IsInf]
    constructor
    · rintro (⟨t, ht⟩ | ⟨u, v, huv⟩)
      · exact ⟨[], t, by simp [ht]⟩
      · exact ⟨c :: u, v, by simp [huv]⟩
    · rintro ⟨u, v, huv⟩
      cases u with
      | nil => exact Or.inl ⟨v, by simpa using huv⟩
      | cons x xs =>
        injection huv with h1 h2
        exact Or.inr ⟨xs, v, h2⟩

theorem IsInf.of_pfx {p s : Str} (h : IsPfx p s) : IsInf p s := by
  obtain ⟨t, ht⟩ := h; exact ⟨[], t, by simpa using ht⟩

theorem IsInf.of_sfx {p s : Str} (h : IsSfx p s) : IsInf p s := by
  obtain ⟨t, ht⟩ := h; exact ⟨t, [], by simpa using ht⟩

theorem IsInf.trans {a b c : Str} (h1 : IsInf a b) (h2 : IsInf b c) : IsInf a c := by
  obtain ⟨u1, v1, h1⟩ := h1
  obtain ⟨u2, v2, h2⟩ := h2
  exact ⟨u2 ++ u1, v1 ++ v2, by rw [← h2, ← h1]; simp⟩

theorem IsInf.append_left {p s : Str} (t : Str) (h : IsInf p s) : IsInf p (t ++ s) := by
  obtain ⟨u, v, h⟩ := h; exact ⟨t ++ u, v, by rw [← h]; simp⟩

theorem IsInf.append_right {p s : Str} (t : Str) (h : IsInf p s) : IsInf p (s ++ t) := by
  obtain ⟨u, v, h⟩ := h; exact ⟨u, v ++ t, by rw [← h]; simp⟩

theorem IsInf.mem {c : Char} {p s : Str} (h : IsInf p s) (hc : c ∈ p) : c ∈ s := by
  obtain ⟨u, v, h⟩ := h
  rw [← h]; simp [hc]

theorem IsSfx.consSfx {p s : Str} (c : Char) (h : IsSfx p s) : IsSfx p (c :: s) := by
  obtain ⟨t, ht⟩ := h; exact ⟨c :: t, by simp [ht]⟩

theorem IsPfx.consPfx {p s : Str} (c : Char) (h : IsPfx p s) : IsPfx (c :: p) (c :: s) := by
  obtain ⟨t, ht⟩ := h; exact ⟨t, by simp [ht]⟩

/-- A prefix of an append is a prefix of the left part, or extends it
into the right part. -/
theorem isPfx_append_cases {p a b : Str} (h : IsPfx p (a ++ b)) :
    IsPfx p a ∨ ∃ b1, IsPfx b1 b ∧ p = a ++ b1 := by
  induction a generalizing p with
  | nil => exact Or.inr ⟨p, h, rfl⟩
  | cons c a' ih =>
    cases p with
    | nil => exact Or.inl ⟨c :: a', rfl⟩
    | cons d p' =>
      obtain ⟨t, ht⟩ := h
      injection ht with h1 h2
      subst h1
      rcases ih ⟨t, h2⟩ with h | ⟨b1, hb1, rfl⟩
      · exact Or.inl (h.consPfx d)
      · exact Or.inr ⟨b1, hb1, rfl⟩

/-- Splitting an occurrence across an append: the occurrence lies in the
left part, in the right part, or spans the boundary. -/
theorem isInf_append_cases {p a b : Str} (h : IsInf p (a ++ b)) :
    IsInf p a ∨ IsInf p b ∨
      ∃ a2 b1, IsSfx a2 a ∧ IsPfx b1 b ∧ a2 ≠ [] ∧ b1 ≠ [] ∧ p = a2 ++ b1 := by
  induction a generalizing p with
  | nil => exact Or.inr (Or.inl h)
  | cons c a' ih =>
    obtain ⟨u, v, huv⟩ := h
    cases u with
    | nil =>
      -- the occurrence starts at the head
      cases p with
      | nil => exact Or.inl ⟨[], c :: a', rfl⟩
      | cons d p' =>
        injection (by simpa using huv : d :: (p' ++ v) = c :: (a' ++ b)) with h1 h2
        subst h1
        rcases isPfx_append_cases (⟨v, h2⟩ : IsPfx p' (a' ++ b)) with hp | ⟨b1, hb1, rfl⟩
        · obtain ⟨t, ht⟩ := hp
          exact Or.inl ⟨[], t, by simp [ht]⟩
        · cases b1 with
          | nil => exact Or.inl ⟨[], [], by simp⟩
          | cons y ys =>
            exact Or.inr (Or.inr ⟨d :: a', y :: ys, ⟨[], rfl⟩, hb1, by simp, by simp, rfl⟩)
    | cons x u' =>
      injection (by simpa using huv : x :: (u' ++ p ++ v) = c :: (a' ++ b)) with h1 h2
      rcases ih ⟨u', v, h2⟩ with h | h | ⟨a2, b1, ha2, hb1, hne1, hne2, rfl⟩
      · exact Or.inl (h.append_left [c])
      · exact Or.inr (Or.inl h)
      · exact Or.inr (Or.inr ⟨a2, b1, ha2.consSfx c, hb1, hne1, hne2, rfl⟩)

/-- A nonempty prefix of `s` starts with the head of `s`. -/
theorem IsPfx.head_eq {p s : Str} (h : IsPfx p s) (hne : p ≠ []) :
    ∃ c rest, p = c :: rest ∧ ∃ rest', s = c :: rest' := by
  obtain ⟨t, ht⟩ := h
  cases p with
  | nil => exact absurd rfl hne
  | cons c rest => exact ⟨c, rest, rfl, rest ++ t, by simpa using ht.symm⟩

/-- A nonempty suffix of a list ending in `c` contains `c`. -/
theorem IsSfx.last_mem {p w : Str} {c : Char} (h : IsSfx p (w ++ [c]))
    (hne : p ≠ []) : c ∈ p := by
  obtain ⟨t, ht⟩ := h
  rcases List.append_eq_append_iff.mp ht with ⟨a', _, hp⟩ | ⟨c', _, hc⟩
  · rw [hp]; simp
  · cases c' with
    | nil => simp at hc; rw [← hc]; simp
    | cons x xs =>
      injection hc with h1 h2
      have h3 := List.append_eq_nil.mp h2.symm
      exact absurd h3.2 hne

/-! ## JS `replaceAll` with a literal pattern -/

/-- Fuel-indexed worker for `replaceAll`: the fuel bounds the number of
scanned characters, making the recursion structural (so that concrete
instances evaluate). -/
def replaceAllF (pat rep : Str) : Nat → Str → Str
  | _, [] => []
  | 0, s => s
  | fuel + 1, c :: s =>
    if isPfxB pat (c :: s) && !pat.isEmpty then
      rep ++ replaceAllF pat rep fuel (List.drop (pat.length - 1) s)
    else
      c :: replaceAllF pat rep fuel s

/-- JS `String.prototype.replaceAll` with a literal (non-regex) pattern:
replace the leftmost occurrence and continue scanning *after* the
inserted replacement (inserted text is never rescanned). An empty
pattern is never used by the scaffold; we leave the string unchanged
in that case. -/
def replaceAll (pat rep : Str) (s : Str) : Str := replaceAllF pat rep s.length s

/-- The result of `replaceAllF` does not depend on the fuel, as long as
the fuel covers the string. -/
theorem replaceAllF_congr (pat rep : Str) :
    ∀ (fuel1 fuel2 : Nat) (s : Str), s.length ≤ fuel1 → s.length ≤ fuel2 →
      replaceAllF pat rep fuel1 s = replaceAllF pat rep fuel2 s := by
  intro fuel1
  induction fuel1 with
  | zero =>
    intro fuel2 s hs1 _
    have : s = [] := List.eq_nil_of_length_eq_zero (Nat.le_zero.mp hs1)
    subst this
    cases fuel2 <;> rfl
  | succ f1 ih =>
    intro fuel2 s hs1 hs2
    cases s with
    | nil => cases fuel2 <;> rfl
    | cons c s' =>
      cases fuel2 with
      | zero => simp at hs2
      | succ f2 =>
        rw [replaceAllF, replaceAllF]
        simp only [List.length_cons] at hs1 hs2
        cases hcond : isPfxB pat (c :: s') && !pat.isEmpty with
        | true =>
          simp only [hcond, if_true]
          congr 1
          exact ih f2 _ (by simp only [List.length_drop]; omega)
            (by simp only [List.length_drop]; omega)
        | false =>
          simp only [hcond, Bool.false_eq_true, if_false]
          congr 1
          exact ih f2 s' (by omega) (by omega)

theorem replaceAll_nil (pat rep : Str) : replaceAll pat rep [] = [] := rfl

theorem replaceAll_cons (pat rep : Str) (c : Char) (s : Str) :
    replaceAll pat rep (c :: s) =
      if isPfxB pat (c :: s) && !pat.isEmpty then
        rep ++ replaceAll pat rep (List.drop (pat.length - 1) s)
      else
        c :: replaceAll pat rep s := by
  show replaceAllF pat rep (c :: s).length (c :: s) = _
  rw [List.length_cons, replaceAllF]
  cases hcond : isPfxB pat (c :: s) && !pat.isEmpty with
  | true =>
    simp only [hcond, if_true]
    congr 1
    exact replaceAllF_congr pat rep s.length (List.drop (pat.length - 1) s).length _
      (by simp only [List.length_drop]; omega) (le_refl _)
  | false =>
    simp only [hcond, Bool.false_eq_true, if_false]
    rfl

/-- Join a list of pieces with a separator between consecutive pieces. -/
def joinSep (sep : Str) : List Str → Str
  | [] => []
  | [p] => p
  | p :: q :: rest => p ++ sep ++ joinSep sep (q :: rest)

theorem joinSep_cons (sep : Str) (p : Str) {ps : List Str} (h : ps ≠ []) :
    joinSep sep (p :: ps) = p ++ sep ++ joinSep sep ps := by
  cases ps with
  | nil => exact absurd rfl h
  | cons q rest => rfl

theorem isInf_of_mem_joinSep (sep : Str) :
    ∀ ps : List Str, ∀ p ∈ ps, IsInf p (joinSep sep ps) := by
  intro ps
  induction ps with
  | nil => intro p hp; cases hp
  | cons q rest ih =>
    intro p hp
    cases rest with
    | nil =>
      rcases List.mem_singleton.mp hp with rfl
      exact ⟨[], [], by simp [joinSep]⟩
    | cons r rest' =>
      rcases List.mem_cons.mp hp with rfl | hp'
      · exact ((IsInf.append_right sep ⟨[], [], by simp⟩).append_right _ : IsInf p (p ++ sep ++ _))
      · exact (ih p hp').append_left (q ++ sep)

/-- The decomposition produced by `replaceAll`: the input splits into
pattern-free pieces joined by the pattern, and the output is the same
pieces joined by the replacement. -/
theorem replaceAll_shape (pat rep : Str) (hpat : pat ≠ []) :
    ∀ n (s : Str), s.length ≤ n →
      ∃ ps : List Str, ps ≠ [] ∧ joinSep pat ps = s ∧
        joinSep rep ps = replaceAll pat rep s ∧ ∀ p ∈ ps, ¬ IsInf pat p := by
  intro n
  induction n with
  | zero =>
    intro s hs
    have : s = [] := List.eq_nil_of_length_eq_zero (Nat.le_zero.mp hs)
    subst this
    refine ⟨[[]], by simp, rfl, by rw [replaceAll_nil]; rfl, ?_⟩
    intro p hp
    rcases List.mem_singleton.mp hp with rfl
    rintro ⟨u, v, huv⟩
    have h := List.append_eq_nil.mp huv
    have h2 := List.append_eq_nil.mp h.1
    exact hpat h2.2
  | succ n ih =>
    intro s hs
    cases s with
    | nil =>
      refine ⟨[[]], by simp, rfl, by rw [replaceAll_nil]; rfl, ?_⟩
      intro p hp
      rcases List.mem_singleton.mp hp with rfl
      rintro ⟨u, v, huv⟩
      have h := List.append_eq_nil.mp huv
      have h2 := List.append_eq_nil.mp h.1
      exact hpat h2.2
    | cons c s' =>
      by_cases hcond : (isPfxB pat (c :: s') && !pat.isEmpty) = true
      · -- a match at the head
        have hpfx : IsPfx pat (c :: s') :=
          (isPfxB_iff _ _).mp (Bool.and_elim_left hcond)
        obtain ⟨t, ht⟩ := hpfx
        obtain ⟨p0, pat', rfl⟩ : ∃ p0 pat', pat = p0 :: pat' := by
          cases pat with
          | nil => exact absurd rfl hpat
          | cons p0 pat' => exact ⟨p0, pat', rfl⟩
        injection ht with hc hs'
        have hdrop : List.drop ((p0 :: pat').length - 1) s' = t := by
          simp only [List.length_cons, Nat.add_sub_cancel]
          rw [← hs']
          exact List.drop_left pat' t
        have htlen : t.length ≤ n := by
          have h5 := congrArg List.length hs'
          simp only [List.length_append, List.append_eq] at h5
          simp only [List.length_cons] at hs
          omega
        obtain ⟨ps, hne, hjoin, hrepj, hpieces⟩ := ih t htlen
        refine ⟨[] :: ps, by simp, ?_, ?_, ?_⟩
        · rw [joinSep_cons _ _ hne, hjoin]
          simp [← hc, ← hs']
        · rw [joinSep_cons _ _ hne, hrepj, replaceAll_cons, if_pos hcond, hdrop]
          simp
        · intro p hp
          rcases List.mem_cons.mp hp with rfl | hp'
          · rintro ⟨u, v, huv⟩
            have h := List.append_eq_nil.mp huv.symm.symm
            have h2 := List.append_eq_nil.mp (List.append_eq_nil.mp huv).1
            simp at h2
          · exact hpieces p hp'
      · -- no match at the head
        have hs'len : s'.length ≤ n := by
          simp only [List.length_cons] at hs; omega
        obtain ⟨ps, hne, hjoin, hrepj, hpieces⟩ := ih s' hs'len
        obtain ⟨q, qs, rfl⟩ : ∃ q qs, ps = q :: qs := by
          cases ps with
          | nil => exact absurd rfl hne
          | cons q qs => exact ⟨q, qs, rfl⟩
        refine ⟨(c :: q) :: qs, by simp, ?_, ?_, ?_⟩
        · cases qs with
          | nil => simpa [joinSep] using congrArg (c :: ·) (by simpa [joinSep] using hjoin)
          | cons r rest =>
            rw [joinSep_cons _ _ (by simp : r :: rest ≠ [])]
            rw [joinSep_cons _ _ (by simp : r :: rest ≠ [])] at hjoin
            simp only [List.cons_append, List.append_assoc] at hjoin ⊢
            rw [hjoin]
        · rw [replaceAll_cons, if_neg hcond]
          cases qs with
          | nil => simpa [joinSep] using congrArg (c :: ·) (by simpa [joinSep] using hrepj)
          | cons r rest =>
            rw [joinSep_cons _ _ (by simp : r :: rest ≠ [])]
            rw [joinSep_cons _ _ (by simp : r :: rest ≠ [])] at hrepj
            simp only [List.cons_append, List.append_assoc] at hrepj ⊢
            rw [hrepj]
        · intro p hp
          rcases List.mem_cons.mp hp with rfl | hp'
          · -- no occurrence of pat in c :: q
            rintro ⟨u, v, huv⟩
            cases u with
            | nil =>
              -- pat would be a prefix of c :: s'
              have hqpfx : ∃ w, c :: s' = (c :: q) ++ w := by
                cases qs with
                | nil =>
                  refine ⟨[], ?_⟩
                  simp only [joinSep] at hjoin
                  simp [hjoin]
                | cons r rest =>
                  rw [joinSep_cons _ _ (by simp : r :: rest ≠ [])] at hjoin
                  exact ⟨pat ++ joinSep pat (r :: rest), by
                    simp only [List.cons_append, List.append_assoc] at hjoin ⊢
                    rw [hjoin]⟩
              obtain ⟨w, hw⟩ := hqpfx
              have hpf : IsPfx pat (c :: s') := by
                refine ⟨v ++ w, ?_⟩
                rw [hw, ← huv]
                simp
              apply hcond
              have h1 : isPfxB pat (c :: s') = true := (isPfxB_iff _ _).mpr hpf
              have h2 : pat.isEmpty = false := by
                cases pat with
                | nil => exact absurd rfl hpat
                | cons a b => rfl
              rw [h1, h2]
              rfl
            | cons x u' =>
              injection huv with h1 h2
              exact hpieces q (by simp) ⟨u', v, h2⟩
          · exact hpieces p (List.mem_cons_of_mem _ hp')

/-! ## Placeholder tokens -/

/-- Characters that are neither `{` nor `}`. -/
def BraceFree (s : Str) : Prop := ∀ c ∈ s, c ≠ '{' ∧ c ≠ '}'

/-- A placeholder token: `{{NAME}}` with a nonempty brace-free name. -/
def IsTok (t : Str) : Prop :=
  ∃ m, m ≠ [] ∧ BraceFree m ∧ t = '{' :: '{' :: (m ++ ['}', '}'])

theorem IsTok.ne_nil {t : Str} (h : IsTok t) : t ≠ [] := by
  obtain ⟨m, _, _, rfl⟩ := h; simp

theorem IsTok.open_mem {t : Str} (h : IsTok t) : '{' ∈ t := by
  obtain ⟨m, _, _, rfl⟩ := h; simp

/-- A nonempty prefix of a token contains `{`. -/
theorem IsTok.pfx_brace {t p : Str} (h : IsTok t) (hp : IsPfx p t) (hne : p ≠ []) :
    '{' ∈ p := by
  obtain ⟨m, _, _, rfl⟩ := h
  obtain ⟨c, rest, rfl, rest', heq⟩ := hp.head_eq hne
  injection heq with h1 _
  rw [← h1]; simp

/-- A nonempty suffix of a token contains `}`. -/
theorem IsTok.sfx_brace {t p : Str} (h : IsTok t) (hp : IsSfx p t) (hne : p ≠ []) :
    '}' ∈ p := by
  obtain ⟨m, _, _, rfl⟩ := h
  have hrw : '{' :: '{' :: (m ++ ['}', '}']) = ('{' :: '{' :: (m ++ ['}'])) ++ ['}'] := by
    simp
  rw [hrw] at hp
  exact hp.last_mem hne

/-- An occurrence of a token in pieces joined by a brace-free separator
that is not a fragment of the token lies entirely within one piece. -/
theorem isInf_joinSep_cases {t' rep : Str} (ht' : IsTok t') (hrep : BraceFree rep)
    (hni : ¬ IsInf rep t') :
    ∀ ps : List Str, IsInf t' (joinSep rep ps) → ∃ p ∈ ps, IsInf t' p := by
  intro ps
  induction ps with
  | nil =>
    intro h
    obtain ⟨u, v, huv⟩ := h
    have h1 := List.append_eq_nil.mp huv
    have h2 := List.append_eq_nil.mp h1.1
    exact absurd h2.2 ht'.ne_nil
  | cons q rest ih =>
    intro h
    cases rest with
    | nil => exact ⟨q, by simp, by simpa [joinSep] using h⟩
    | cons r rest' =>
      rw [joinSep_cons _ _ (by simp : r :: rest' ≠ []), List.append_assoc] at h
      rcases isInf_append_cases h with h | h | ⟨a2, b1, ha2, hb1, hne1, hne2, heq⟩
      · exact ⟨q, by simp, h⟩
      · rcases isInf_append_cases h with h | h | ⟨a2, b1, ha2, hb1, hne1, hne2, heq⟩
        · -- token inside the brace-free separator: impossible
          exact absurd ((hrep _ (h.mem ht'.open_mem)).1 rfl) id
        · obtain ⟨p, hp, hinf⟩ := ih h
          exact ⟨p, by simp [hp], hinf⟩
        · -- spanning separator into the join: the left fragment has a `{`
          have : '{' ∈ a2 := ht'.pfx_brace ⟨b1, heq.symm⟩ hne1
          obtain ⟨t0, ht0⟩ := ha2
          exact absurd ((hrep _ (by rw [← ht0]; simp [this])).1 rfl) id
      · -- spanning a piece into separator-join: the right fragment has a `}`
        have hbrace : '}' ∈ b1 := ht'.sfx_brace ⟨a2, heq.symm⟩ hne2
        rcases isPfx_append_cases hb1 with hb | ⟨b2, hb2, rfl⟩
        · obtain ⟨t0, ht0⟩ := hb
          exact absurd ((hrep _ (by rw [← ht0]; simp [hbrace])).2 rfl) id
        · -- the whole separator sits inside the token: contradicts `hni`
          exact absurd ⟨a2, b2, by rw [heq]; simp⟩ hni

/-- After `replaceAll pat rep s`, any remaining occurrence of a token
`t'` was already in `s`, and `t'` is not the replaced pattern — provided
the replacement is brace-free and not a fragment of `t'`. -/
theorem replaceAll_token_free {pat rep t' : Str} (hpat : pat ≠ []) (ht' : IsTok t')
    (hrep : BraceFree rep) (hni : ¬ IsInf rep t') (s : Str) :
    IsInf t' (replaceAll pat rep s) → t' ≠ pat ∧ IsInf t' s := by
  intro h
  obtain ⟨ps, hne, hjoin, hrepj, hpieces⟩ :=
    replaceAll_shape pat rep hpat s.length s (le_refl _)
  rw [← hrepj] at h
  obtain ⟨p, hp, hinf⟩ := isInf_joinSep_cases ht' hrep hni ps h
  refine ⟨?_, ?_⟩
  · rintro rfl
    exact hpieces p hp hinf
  · exact hinf.trans (by rw [← hjoin]; exact isInf_of_mem_joinSep pat ps p hp)

theorem replaceAll_no_occurrence_aux {pat rep : Str} :
    ∀ n (s : Str), s.length ≤ n → ¬ IsInf pat s → replaceAll pat rep s = s := by
  intro n
  induction n with
  | zero =>
    intro s hs _
    have : s = [] := List.eq_nil_of_length_eq_zero (Nat.le_zero.mp hs)
    subst this
    exact replaceAll_nil pat rep
  | succ n ih =>
    intro s hs h
    cases s with
    | nil => exact replaceAll_nil pat rep
    | cons c s' =>
      rw [replaceAll_cons]
      have hcond : (isPfxB pat (c :: s') && !pat.isEmpty) = false := by
        cases hb : (isPfxB pat (c :: s') && !pat.isEmpty) with
        | false => rfl
        | true =>
          rw [Bool.and_eq_true] at hb
          exact absurd (IsInf.of_pfx ((isPfxB_iff _ _).mp hb.1)) h
      rw [if_neg (by simp [hcond])]
      congr 1
      refine ih s' (by simp only [List.length_cons] at hs; omega) ?_
      intro hinf
      exact h (hinf.append_left [c])

/-- `replaceAll` leaves a string with no occurrence of the pattern
unchanged. -/
theorem replaceAll_of_no_occurrence {pat rep : Str} (s : Str) (h : ¬ IsInf pat s) :
    replaceAll pat rep s = s :=
  replaceAll_no_occurrence_aux s.length s (le_refl _) h

/-! ## Sequential substitution over a replacement table

The loop body of `replaceInFile` in `scaffold.ts`:
`for (const [key, value] of Object.entries(replacements))` runs
`replaceAll key value` once per entry, in insertion order. -/

/-- One `replaceAll` pass per `(token, value)` pair, in list order. -/
def applyReplacements (cfg : List (Str × Str)) (content : Str) : Str :=
  cfg.foldl (fun acc kv => replaceAll kv.1 kv.2 acc) content

theorem applyReplacements_nil (content : Str) : applyReplacements [] content = content := rfl

/-- Unfolding one pass. -/
theorem applyReplacements_cons_eq (kv : Str × Str) (cfg : List (Str × Str)) (content : Str) :
    applyReplacements (kv :: cfg) content =
      applyReplacements cfg (replaceAll kv.1 kv.2 content) := rfl

/-- Later passes cannot re-introduce a token that is already absent,
as long as every later value is brace-free and not a fragment of it. -/
theorem applyReplacements_preserves_absence {k : Str} (hk : IsTok k) :
    ∀ (cfg : List (Str × Str)) (s : Str),
      (∀ kv ∈ cfg, kv.1 ≠ [] ∧ BraceFree kv.2 ∧ ¬ IsInf kv.2 k) →
      ¬ IsInf k s → ¬ IsInf k (applyReplacements cfg s) := by
  intro cfg
  induction cfg with
  | nil => intro s _ h; exact h
  | cons kv rest ih =>
    intro s hcond h
    rw [applyReplacements_cons_eq]
    have hckv := hcond kv (by simp)
    refine ih _ (fun kv' h' => hcond kv' (List.mem_cons_of_mem _ h')) ?_
    intro hinf
    exact h (replaceAll_token_free hckv.1 hk hckv.2.1 hckv.2.2 s hinf).2

/-- After all passes, no token of the table occurs in the result,
provided every token is well-formed and every value is brace-free and
not a fragment of any token of the table. -/
theorem applyReplacements_removes_tokens :
    ∀ (cfg : List (Str × Str)) (s : Str),
      (∀ kv ∈ cfg, IsTok kv.1) →
      (∀ kv ∈ cfg, BraceFree kv.2 ∧ ∀ kv' ∈ cfg, ¬ IsInf kv.2 kv'.1) →
      ∀ kv ∈ cfg, ¬ IsInf kv.1 (applyReplacements cfg s) := by
  intro cfg
  induction cfg with
  | nil => intro s _ _ kv h; cases h
  | cons kv0 rest ih =>
    intro s htok hval kv hkv
    rw [applyReplacements_cons_eq]
    rcases List.mem_cons.mp hkv with heq | hkv'
    · -- the head token: removed by its own pass, preserved absent after
      have h0 := hval kv0 (by simp)
      have habs : ¬ IsInf kv0.1 (replaceAll kv0.1 kv0.2 s) := by
        intro hinf
        exact (replaceAll_token_free (htok kv0 (by simp)).ne_nil (htok kv0 (by simp))
          h0.1 (h0.2 kv0 (by simp)) s hinf).1 rfl
      rw [heq]
      exact applyReplacements_preserves_absence (htok kv0 (by simp)) rest _
        (fun kv' h' => ⟨(htok kv' (List.mem_cons_of_mem _ h')).ne_nil,
          (hval kv' (List.mem_cons_of_mem _ h')).1,
          (hval kv' (List.mem_cons_of_mem _ h')).2 kv0 (by simp)⟩) habs
    · exact ih _ (fun kv' h' => htok kv' (List.mem_cons_of_mem _ h'))
        (fun kv' h' => ⟨(hval kv' (List.mem_cons_of_mem _ h')).1,
          fun kv'' h'' => (hval kv' (List.mem_cons_of_mem _ h')).2 kv''
            (List.mem_cons_of_mem _ h'')⟩) kv hkv'

/-- A content with no occurrence of any token of the table is left
entirely untouched. -/
theorem applyReplacements_of_no_tokens :
    ∀ (cfg : List (Str × Str)) (s : Str),
      (∀ kv ∈ cfg, ¬ IsInf kv.1 s) → applyReplacements cfg s = s := by
  intro cfg
  induction cfg with
  | nil => intro s _; rfl
  | cons kv rest ih =>
    intro s h
    rw [applyReplacements_cons_eq, replaceAll_of_no_occurrence s (h kv (by simp))]
    exact ih s fun kv' h' => h kv' (List.mem_cons_of_mem _ h')

/-! ## Decidable (Bool) forms of the side conditions -/

/-- `s` contains neither `{` nor `}` (Bool form). -/
def braceFreeB (s : Str) : Bool := s.all fun c => !(c == '{') && !(c == '}')

theorem braceFreeB_iff (s : Str) : braceFreeB s = true ↔ BraceFree s := by
  simp [braceFreeB, BraceFree, List.all_eq_true]

/-- `t` has shape `{{NAME}}` with `NAME` nonempty and brace-free (Bool form). -/
def isTokB (t : Str) : Bool :=
  match t with
  | c1 :: c2 :: rest =>
    (c1 == '{') && (c2 == '{') &&
      (!rest.dropLast.dropLast.isEmpty && braceFreeB rest.dropLast.dropLast &&
        (rest == rest.dropLast.dropLast ++ ['}', '}']))
  | _ => false

theorem isTokB_isTok {t : Str} (h : isTokB t = true) : IsTok t := by
  cases t with
  | nil => simp [isTokB] at h
  | cons c1 t1 =>
    cases t1 with
    | nil => simp [isTokB] at h
    | cons c2 rest =>
      simp only [isTokB, Bool.and_eq_true, beq_iff_eq, Bool.not_eq_true',
        List.isEmpty_eq_false] at h
      obtain ⟨⟨rfl, rfl⟩, ⟨hm, hbf⟩, heq⟩ := h
      exact ⟨rest.dropLast.dropLast, hm, (braceFreeB_iff _).mp hbf, by rw [← heq]⟩

/-- The complete safety condition on a replacement table: every token is
a well-formed `{{NAME}}` marker and every value is brace-free and not a
substring of any token. -/
def safeCfgB (cfg : List (Str × Str)) : Bool :=
  cfg.all (fun kv => isTokB kv.1) &&
  cfg.all (fun kv => braceFreeB kv.2 && cfg.all (fun kv' => !hasInfix kv'.1 kv.2))

theorem safeCfgB_removes {cfg : List (Str × Str)} (h : safeCfgB cfg = true)
    (s : Str) : ∀ kv ∈ cfg, ¬ IsInf kv.1 (applyReplacements cfg s) := by
  rw [safeCfgB, Bool.and_eq_true, List.all_eq_true, List.all_eq_true] at h
  refine applyReplacements_removes_tokens cfg s
    (fun kv hkv => isTokB_isTok (h.1 kv hkv)) (fun kv hkv => ?_)
  have h2 := h.2 kv hkv
  rw [Bool.and_eq_true, List.all_eq_true] at h2
  refine ⟨(braceFreeB_iff _).mp h2.1, fun kv' hkv' hinf => ?_⟩
  have h3 := h2.2 kv' hkv'
  rw [Bool.not_eq_true'] at h3
  rw [← hasInfix_iff] at hinf
  rw [hinf] at h3
  cases h3

/-! ## Data model: options and the placeholder configuration -/

/-- The closed set of package managers (`'npm' | 'yarn' | 'pnpm'`). -/
inductive PM where
  | npm
  | yarn
  | pnpm
deriving DecidableEq

def PM.name : PM → String
  | .npm => "npm"
  | .yarn => "yarn"
  | .pnpm => "pnpm"

/-- `ScaffoldOptions` of `scaffold.ts`. Optional string fields are
`Option String`; a present-but-empty string is distinct from an absent
one, mirroring TypeScript. -/
structure ScaffoldOptions where
  appName : String
  useTs : Bool
  horizonUrl : Option String := none
  sorobanUrl : Option String := none
  wallets : Option (List String) := none
  defaults : Option Bool := none
  skipInstall : Option Bool := none
  packageManager : Option PM := none
  installTimeout : Option Nat := none
deriving DecidableEq

/-- JS `x || dflt` on an optional string: `undefined` and `""` are falsy. -/
def jsOrStr (v : Option String) (dflt : String) : String :=
  match v with
  | none => dflt
  | some s => if s = "" then dflt else s

/-- JS `s || dflt` on a plain string: `""` is falsy. -/
def jsOrS (s : String) (dflt : String) : String := if s = "" then dflt else s

/-- One character of `JSON.stringify` string escaping. -/
def jsonEscChar (c : Char) : Str :=
  if c = '\\' then ['\\', '\\'] else if c = '"' then ['\\', '"'] else [c]

/-- `JSON.stringify` of one string. -/
def jsonStr (s : String) : Str :=
  '"' :: (s.data.foldr (fun c acc => jsonEscChar c ++ acc) []) ++ ['"']

/-- `JSON.stringify` of a string array. -/
def jsonArr (l : List String) : Str :=
  '[' :: joinSep (strOf ",") (l.map jsonStr) ++ [']']

/-- `{{NETWORK}}`: `horizonUrl && horizonUrl.includes("public") ?
"PUBLIC" : "TESTNET"` (scaffold.ts line 68). -/
def networkValue (horizonUrl : Option String) : String :=
  match horizonUrl with
  | none => "TESTNET"
  | some s =>
    if (!(s == "")) && hasInfix s.data (strOf "public") then "PUBLIC" else "TESTNET"

/-- `{{WALLETS}}`: `wallets && wallets.length > 0 ? JSON.stringify(wallets)
: JSON.stringify(["freighter", "albedo", "lobstr"])` (scaffold.ts 69-71). -/
def walletsValue (wallets : Option (List String)) : Str :=
  match wallets with
  | none => jsonArr ["freighter", "albedo", "lobstr"]
  | some l => if 0 < l.length then jsonArr l else jsonArr ["freighter", "albedo", "lobstr"]

/-- The placeholder table `config` of `scaffold.ts` (lines 64-72), in
object-literal insertion order. -/
def scaffoldConfig (o : ScaffoldOptions) : List (Str × Str) :=
  [(strOf "{{APP_NAME}}", strOf o.appName),
   (strOf "{{HORIZON_URL}}", strOf (jsOrStr o.horizonUrl "https://horizon-testnet.stellar.org")),
   (strOf "{{SOROBAN_URL}}", strOf (jsOrStr o.sorobanUrl "https://soroban-testnet.stellar.org")),
   (strOf "{{NETWORK}}", strOf (networkValue o.horizonUrl)),
   (strOf "{{WALLETS}}", walletsValue o.wallets)]

/-! ## Filesystem trees -/

mutual
/-- A filesystem node: a file (content bytes and mtime) or a directory. -/
inductive FsTree where
  | file (content : Str) (mtime : Nat)
  | dir (entries : Entries)
deriving DecidableEq

/-- Named entries of a directory. -/
inductive Entries where
  | nil
  | cons (name : String) (child : FsTree) (rest : Entries)
deriving DecidableEq
end

/-- The two hard exclusions of the copy filter (`scaffold.ts` 48-51):
`basename !== ".git" && basename !== "node_modules"`, negated. -/
def excludedName (n : String) : Bool := n == ".git" || n == "node_modules"

mutual
/-- `fs.copy` with the basename filter and `preserveTimestamps: true`:
the filter is consulted for every entry at every depth, and a filtered
directory is not descended into. -/
def copyTree : FsTree → FsTree
  | .file c m => .file c m
  | .dir es => .dir (copyEntries es)

def copyEntries : Entries → Entries
  | .nil => .nil
  | .cons n t rest =>
    if excludedName n then copyEntries rest
    else .cons n (copyTree t) (copyEntries rest)
end

def Entries.find : Entries → String → Option FsTree
  | .nil, _ => none
  | .cons n t rest, key => if n == key then some t else rest.find key

/-- Resolve a path (list of segments) in a tree; recursion is structural
on the path. -/
def lookupTree : FsTree → List String → Option FsTree
  | t, [] => some t
  | .file _ _, _ :: _ => none
  | .dir es, n :: p =>
    match es.find n with
    | some c => lookupTree c p
    | none => none
termination_by structural _t p => p

def Entries.names : Entries → List String
  | .nil => []
  | .cons n _ rest => n :: rest.names

/-- The names of the immediate children (empty for a file). -/
def entryNames : FsTree → List String
  | .file _ _ => []
  | .dir es => es.names

mutual
/-- `fs.writeFile` at a path: replace the content (and mtime) of an
existing file; no effect if the path is missing or is a directory. -/
def writeTree : FsTree → List String → Str → Nat → FsTree
  | .file _ _, [], c, now => .file c now
  | .dir es, [], _, _ => .dir es
  | .file c0 m0, _ :: _, _, _ => .file c0 m0
  | .dir es, n :: p, c, now => .dir (writeEntries es n p c now)

def writeEntries : Entries → String → List String → Str → Nat → Entries
  | .nil, _, _, _, _ => .nil
  | .cons n' t rest, n, p, c, now =>
    if n' == n then .cons n' (writeTree t p c now) rest
    else .cons n' t (writeEntries rest n p c now)
end

/-- A fresh file wrapped in fresh directories for the remaining path. -/
def insertNew : List String → Str → Nat → FsTree
  | [], c, now => .file c now
  | n :: p, c, now => .dir (.cons n (insertNew p c now) .nil)

mutual
/-- `fs.ensureDir` followed by `fs.writeFile`: create the path, making
intermediate directories as needed. -/
def insertTree : FsTree → List String → Str → Nat → FsTree
  | _, [], c, now => .file c now
  | .file c0 m0, _ :: _, _, _ => .file c0 m0
  | .dir es, n :: p, c, now => .dir (insertEntries es n p c now)

def insertEntries : Entries → String → List String → Str → Nat → Entries
  | .nil, n, p, c, now => .cons n (insertNew p c now) .nil
  | .cons n' t rest, n, p, c, now =>
    if n' == n then .cons n' (insertTree t p c now) rest
    else .cons n' t (insertEntries rest n p c now)
end

/-- `replaceInFile` guarded by `fs.pathExists` (scaffold.ts 55-62, 82-86):
a missing path is silently skipped; reading a directory raises `EISDIR`;
an existing file is rewritten with every table entry applied in order. -/
def replaceInFile (cfg : List (Str × Str)) (now : Nat) (t : FsTree) (p : List String) :
    FsTree × Option String :=
  match lookupTree t p with
  | some (.file c _) => (writeTree t p (applyReplacements cfg c) now, none)
  | some (.dir _) => (t, some "EISDIR: illegal operation on a directory, read")
  | none => (t, none)

/-- The fixed designated file list `filesToProcess` (scaffold.ts 76-81),
split into path segments. -/
def filesToProcess : List (List String) :=
  [["package.json"],
   ["src", "contexts", "WalletProvider.tsx"],
   ["src", "lib", "stellar-wallet-kit.ts"],
   ["src", "hooks", "useSorobanContract.ts"]]

/-- The substitution loop over the designated files; a thrown filesystem
error aborts the loop, leaving the earlier rewrites in place. -/
def processFiles (cfg : List (Str × Str)) (now : Nat) :
    FsTree → List (List String) → FsTree × Option String
  | t, [] => (t, none)
  | t, p :: rest =>
    match replaceInFile cfg now t p with
    | (t', none) => processFiles cfg now t' rest
    | (t', some e) => (t', some e)

/-- The materialisation core: copy with exclusions, then substitute in
the designated files. Returns the produced target tree and the first
filesystem error of the substitution phase, if any. -/
def materializeTree (o : ScaffoldOptions) (template : FsTree) (now : Nat) :
    FsTree × Option String :=
  processFiles (scaffoldConfig o) now (copyTree template) filesToProcess

/-! ## Dependency installer (`install.ts`) -/

/-- `InstallOptions` of `install.ts`. -/
structure InstallOptions where
  cwd : String
  packageManager : Option PM := none
  timeout : Option Nat := none
  skipInstall : Option Bool := none
  captureOutput : Option Bool := none
deriving DecidableEq

/-- `InstallResult` of `install.ts`. -/
structure InstallResult where
  success : Bool
  packageManager : String
  error : Option String := none
  logPath : Option String := none
deriving DecidableEq

/-- The ambient state read by `detectPackageManager`: the
`npm_config_user_agent` environment variable and which lock files exist
in the probed directory. -/
structure FsEnv where
  userAgent : Option String := none
  hasPnpmLock : Bool := false
  hasYarnLock : Bool := false
  hasNpmLock : Bool := false
deriving DecidableEq

/-- Steps 3-4 of the resolution order: lock files in priority order,
then the `npm` default (install.ts 41-47). -/
def detectFromLocks (env : FsEnv) : PM :=
  if env.hasPnpmLock then .pnpm
  else if env.hasYarnLock then .yarn
  else if env.hasNpmLock then .npm
  else .npm

/-- `detectPackageManager(cwd, packageManager?)` (install.ts 27-48).
The lock files of `cwd` and the user-agent variable are supplied through
`env`. -/
def detectPackageManager (env : FsEnv) (packageManager : Option PM) : PM :=
  match packageManager with
  | some pm => pm
  | none =>
    match env.userAgent with
    | some ua =>
      if !(ua == "") then
        if hasInfix ua.data (strOf "yarn") then .yarn
        else if hasInfix ua.data (strOf "pnpm") then .pnpm
        else if hasInfix ua.data (strOf "npm") then .npm
        else detectFromLocks env
      else detectFromLocks env
    | none => detectFromLocks env

/-- `getInstallCommand` (install.ts 53-64). -/
def getInstallCommand : PM → String × List String
  | .npm => ("npm", ["install", "--no-audit", "--no-fund"])
  | .yarn => ("yarn", ["install", "--non-interactive"])
  | .pnpm => ("pnpm", ["install", "--no-frozen-lockfile"])

/-- A JS error value caught from `execa`: non-zero exit, timeout or
spawn failure alike surface here. -/
structure ExecErr where
  message : String
  stack : Option String := none
  stdout : Option String := none
  stderr : Option String := none
deriving DecidableEq

/-- The outcome of the awaited `execa` child process. -/
inductive ExecOutcome where
  | ok
  | err (e : ExecErr)
deriving DecidableEq

/-- Observable side effects of `runInstall`: spawning the child process,
and writing the diagnostic log. -/
inductive Event where
  | spawn (command : String) (args : List String) (cwd : String)
  | writeLog (relPath : List String) (content : String)
deriving DecidableEq

/-- The lines of `.nextellar/install.log` (install.ts 131-148). -/
def installLogLines (cwd : String) (e : ExecErr) (packageManager : String)
    (timestamp : String) : List String :=
    ["Nextellar Installation Error Log",
     "Timestamp: " ++ timestamp,
     "Package Manager: " ++ packageManager,
     "Working Directory: " ++ cwd,
     "",
     "Error Details:",
     jsOrS e.message "Unknown error",
     "",
     "Stack Trace:",
     jsOrStr e.stack "No stack trace available",
     "",
     "Stdout:",
     jsOrStr e.stdout "No stdout captured",
     "",
     "Stderr:",
     jsOrStr e.stderr "No stderr captured"]

/-- The fixed layout of `.nextellar/install.log`: the lines joined by
newlines (the `[...].join('\n')` of install.ts 131-148). -/
def installLogContent (cwd : String) (e : ExecErr) (packageManager : String)
    (timestamp : String) : String :=
  String.mk (joinSep (strOf "\n") ((installLogLines cwd e packageManager timestamp).map String.data))

/-- `saveInstallLog` (install.ts 123-156): on success of the write,
the absolute log path and the write event; a failed write is downgraded
to a console warning and yields `undefined` with no event. -/
def saveInstallLog (cwd : String) (e : ExecErr) (packageManager : String)
    (timestamp : String) (logOk : Bool) : Option String × List Event :=
  if logOk then
    (some (cwd ++ "/.nextellar/install.log"),
     [.writeLog [".nextellar", "install.log"] (installLogContent cwd e packageManager timestamp)])
  else (none, [])

/-- `runInstall` (install.ts 70-118). The child-process outcome (success,
non-zero exit, timeout or spawn error) and the log-write outcome are
explicit parameters; the function itself never throws — it always
returns an `InstallResult`. -/
def runInstall (env : FsEnv) (options : InstallOptions) (exec : ExecOutcome)
    (logOk : Bool) (timestamp : String) : InstallResult × List Event :=
  let skipInstall := options.skipInstall.getD false
  if skipInstall then
    ({ success := true, packageManager := "skipped" }, [])
  else
    let packageManager := detectPackageManager env options.packageManager
    let cmd := getInstallCommand packageManager
    match exec with
    | .ok =>
      ({ success := true, packageManager := packageManager.name },
       [.spawn cmd.1 cmd.2 options.cwd])
    | .err e =>
      let saved := saveInstallLog options.cwd e packageManager.name timestamp logOk
      ({ success := false, packageManager := packageManager.name,
         error := some (jsOrS e.message "Installation failed"), logPath := saved.1 },
       .spawn cmd.1 cmd.2 options.cwd :: saved.2)

/-! ## The scaffold pipeline (`scaffold.ts`) -/

/-- The disk outside the template: an association of absolute target
paths to the trees written there. -/
def Disk := List (String × FsTree)

/-- Materialise the log writes of the installer into the target tree. -/
def applyInstallEvents (now : Nat) : FsTree → List Event → FsTree
  | t, [] => t
  | t, .writeLog p c :: rest => applyInstallEvents now (insertTree t p c.data now) rest
  | t, .spawn _ _ _ :: rest => applyInstallEvents now t rest

/-- `scaffold(options)` (scaffold.ts 31-95): variant check, target
precondition, filtered copy, placeholder substitution in the designated
files, then `runInstall` in the target directory.

Returns the disk afterwards, the thrown error message (if any), and the
install result with its events when the install step was reached. -/
def scaffold (o : ScaffoldOptions) (cwd : String) (template : FsTree) (now : Nat)
    (exec : ExecOutcome) (env : FsEnv) (logOk : Bool) (timestamp : String)
    (disk : Disk) : Disk × Option String × Option (InstallResult × List Event) :=
  if o.useTs = false then
    (disk, some "JavaScript support is coming soon! Please use TypeScript for now.", none)
  else
    let targetDir := cwd ++ "/" ++ o.appName
    if (List.lookup targetDir disk).isSome then
      (disk, some ("Directory \"" ++ o.appName ++ "\" already exists."), none)
    else
      match materializeTree o template now with
      | (tree1, some e) => ((targetDir, tree1) :: disk, some e, none)
      | (tree1, none) =>
        let ran := runInstall env
          { cwd := targetDir, packageManager := o.packageManager,
            timeout := o.installTimeout, skipInstall := o.skipInstall } exec logOk timestamp
        ((targetDir, applyInstallEvents now tree1 ran.2) :: disk, none, some ran)

/-! ## Lemmas: path lookup and write non-interference -/

/-- `p` is an ancestor-or-equal path of `q`. -/
def pathPfx : List String → List String → Bool
  | [], _ => true
  | _ :: _, [] => false
  | a :: as, b :: bs => a == b && pathPfx as bs

theorem pathPfx_iff : ∀ p q : List String, pathPfx p q = true ↔ ∃ r, q = p ++ r := by
  intro p
  induction p with
  | nil => intro q; simp [pathPfx]
  | cons a as ih =>
    intro q
    cases q with
    | nil =>
      simp only [pathPfx]
      constructor
      · intro h; cases h
      · rintro ⟨r, hr⟩; cases hr
    | cons b bs =>
      simp only [pathPfx, Bool.and_eq_true, beq_iff_eq, ih]
      constructor
      · rintro ⟨rfl, r, rfl⟩; exact ⟨r, rfl⟩
      · rintro ⟨r, hr⟩
        injection hr with h1 h2
        exact ⟨h1.symm, r, h2⟩

theorem lookupTree_append : ∀ (p q : List String) (t : FsTree),
    lookupTree t (p ++ q) = (lookupTree t p).bind (fun s => lookupTree s q) := by
  intro p
  induction p with
  | nil => intro q t; simp [lookupTree]
  | cons n p' ih =>
    intro q t
    cases t with
    | file c m => simp [lookupTree]
    | dir es =>
      simp only [List.cons_append, lookupTree]
      cases es.find n with
      | none => simp
      | some child => simp [ih]

theorem lookupTree_nil (t : FsTree) : lookupTree t [] = some t := by
  simp [lookupTree]

theorem lookupTree_file_cons (c : Str) (m : Nat) (n : String) (p : List String) :
    lookupTree (.file c m) (n :: p) = none := by
  simp [lookupTree]

theorem lookupTree_dir_cons (es : Entries) (n : String) (p : List String) :
    lookupTree (.dir es) (n :: p) =
      match es.find n with
      | some c => lookupTree c p
      | none => none := by
  simp [lookupTree]

/-- Structural induction for `Entries` along the sibling list only. -/
theorem Entries.inductSib (motive : Entries → Prop) (hnil : motive .nil)
    (hcons : ∀ n t rest, motive rest → motive (.cons n t rest)) :
    ∀ es, motive es
  | .nil => hnil
  | .cons n t rest => hcons n t rest (Entries.inductSib motive hnil hcons rest)

mutual
/-- Mutual structural induction for trees and entry lists. -/
theorem FsTree.inductMut1 (m1 : FsTree → Prop) (m2 : Entries → Prop)
    (hf : ∀ c m, m1 (.file c m)) (hd : ∀ es, m2 es → m1 (.dir es))
    (hn : m2 .nil) (hc : ∀ n t rest, m1 t → m2 rest → m2 (.cons n t rest)) :
    ∀ t, m1 t
  | .file c m => hf c m
  | .dir es => hd es (Entries.inductMut m1 m2 hf hd hn hc es)

theorem Entries.inductMut (m1 : FsTree → Prop) (m2 : Entries → Prop)
    (hf : ∀ c m, m1 (.file c m)) (hd : ∀ es, m2 es → m1 (.dir es))
    (hn : m2 .nil) (hc : ∀ n t rest, m1 t → m2 rest → m2 (.cons n t rest)) :
    ∀ es, m2 es
  | .nil => hn
  | .cons n t rest =>
    hc n t rest (FsTree.inductMut1 m1 m2 hf hd hn hc t) (Entries.inductMut m1 m2 hf hd hn hc rest)
end

/-- `writeEntries` and `Entries.find` at the written name. -/
theorem find_writeEntries_self (n : String) (p : List String) (c : Str) (now : Nat) :
    ∀ es : Entries, (writeEntries es n p c now).find n =
      Option.map (fun ch => writeTree ch p c now) (es.find n) := by
  refine Entries.inductSib _ ?_ ?_
  · simp [writeEntries, Entries.find]
  · intro n' t rest ih
    cases h : n' == n with
    | true =>
      rw [writeEntries]
      simp only [h, if_true]
      rw [Entries.find, Entries.find]
      simp [h]
    | false =>
      rw [writeEntries]
      simp only [h, Bool.false_eq_true, if_false]
      rw [Entries.find, Entries.find]
      simp only [h, Bool.false_eq_true, if_false]
      exact ih

/-- `writeEntries` leaves other names untouched. -/
theorem find_writeEntries_other (n a : String) (p : List String) (c : Str) (now : Nat)
    (ha : (a == n) = false) :
    ∀ es : Entries, (writeEntries es n p c now).find a = es.find a := by
  refine Entries.inductSib _ ?_ ?_
  · simp [writeEntries]
  · intro n' t rest ih
    cases h : n' == n with
    | true =>
      have hn : n' = n := beq_iff_eq.mp h
      have hane : a ≠ n := by simpa using ha
      have hna : (n' == a) = false := by
        rw [beq_eq_false_iff_ne]
        intro hcontra
        exact hane (by rw [← hcontra, hn])
      rw [writeEntries]
      simp only [h, if_true]
      rw [Entries.find, Entries.find]
      simp [hna]
    | false =>
      rw [writeEntries]
      simp only [h, Bool.false_eq_true, if_false]
      rw [Entries.find, Entries.find]
      cases h2 : n' == a with
      | true => simp [h2]
      | false =>
        simp only [h2, Bool.false_eq_true, if_false]
        exact ih

/-- Writing at `p` does not change the tree seen from any path `q` that
is not an ancestor-or-equal of `p`. -/
theorem lookupTree_writeTree_other : ∀ (q p : List String) (t : FsTree) (c : Str) (now : Nat),
    pathPfx q p = false →
    lookupTree (writeTree t p c now) q = lookupTree t q := by
  intro q
  induction q with
  | nil => intro p t c now h; cases h
  | cons a q' ih =>
    intro p t c now h
    cases p with
    | nil =>
      cases t with
      | file c0 m0 =>
        rw [writeTree, lookupTree_file_cons, lookupTree_file_cons]
      | dir es => rw [writeTree]
    | cons b p' =>
      cases t with
      | file c0 m0 => rw [writeTree]
      | dir es =>
        rw [writeTree]
        rw [lookupTree_dir_cons, lookupTree_dir_cons]
        cases hab : a == b with
        | false => rw [find_writeEntries_other b a p' c now hab es]
        | true =>
          have hab' : a = b := beq_iff_eq.mp hab
          subst hab'
          rw [find_writeEntries_self]
          have hq' : pathPfx q' p' = false := by
            rw [pathPfx] at h
            simpa using h
          cases es.find a with
          | none => simp
          | some child => simp [ih p' child c now hq']

/-- Writing at a path holding a file replaces exactly that file's
content and stamps the write time. -/
theorem lookupTree_writeTree_self : ∀ (p : List String) (t : FsTree) (c0 : Str) (m0 : Nat) (c : Str) (now : Nat),
    lookupTree t p = some (.file c0 m0) →
    lookupTree (writeTree t p c now) p = some (.file c now) := by
  intro p
  induction p with
  | nil =>
    intro t c0 m0 c now h
    rw [lookupTree_nil] at h
    injection h with h
    subst h
    rw [writeTree, lookupTree_nil]
  | cons n p' ih =>
    intro t c0 m0 c now h
    cases t with
    | file c1 m1 => rw [lookupTree_file_cons] at h; cases h
    | dir es =>
      rw [lookupTree_dir_cons] at h
      rw [writeTree, lookupTree_dir_cons, find_writeEntries_self]
      cases hf : es.find n with
      | none => rw [hf] at h; cases h
      | some child =>
        rw [hf] at h
        simp only [Option.map_some']
        exact ih child c0 m0 c now h

/-- A write never creates a node: a missing path stays missing. -/
theorem lookupTree_writeTree_none : ∀ (q : List String) (t : FsTree) (p : List String) (c : Str) (now : Nat),
    lookupTree t q = none →
    lookupTree (writeTree t p c now) q = none := by
  intro q
  induction q with
  | nil => intro t p c now h; rw [lookupTree_nil] at h; cases h
  | cons a q' ih =>
    intro t p c now h
    cases t with
    | file c0 m0 =>
      cases p with
      | nil => rw [writeTree, lookupTree_file_cons]
      | cons b p' => rw [writeTree]; exact h
    | dir es =>
      cases p with
      | nil => rw [writeTree]; exact h
      | cons b p' =>
        rw [writeTree]
        rw [lookupTree_dir_cons] at h ⊢
        cases hab : a == b with
        | false =>
          rw [find_writeEntries_other b a p' c now hab es]
          exact h
        | true =>
          have hab' : a = b := beq_iff_eq.mp hab
          subst hab'
          rw [find_writeEntries_self]
          cases hf : es.find a with
          | none => simp
          | some child =>
            rw [hf] at h
            simp only [Option.map_some']
            exact ih child p' c now h

theorem pathPfx_refl : ∀ p : List String, pathPfx p p = true := by
  intro p
  induction p with
  | nil => rfl
  | cons a as ih => simp [pathPfx, ih]

/-! ## Lemmas: the filtered copy -/

theorem find_copyEntries : ∀ (es : Entries) (n : String),
    (copyEntries es).find n =
      if excludedName n then none else Option.map copyTree (es.find n) := by
  refine Entries.inductSib _ ?_ ?_
  · intro n
    rw [copyEntries]
    cases excludedName n <;> simp [Entries.find]
  · intro n' t rest ih n
    rw [copyEntries]
    cases hex : excludedName n' with
    | true =>
      simp only [if_true]
      rw [ih n]
      cases hnn : n' == n with
      | true =>
        have : n' = n := beq_iff_eq.mp hnn
        subst this
        rw [hex]
        simp [Entries.find, hnn]
      | false =>
        rw [Entries.find]
        simp [hnn]
    | false =>
      simp only [Bool.false_eq_true, if_false]
      rw [Entries.find, Entries.find]
      cases hnn : n' == n with
      | true =>
        have : n' = n := beq_iff_eq.mp hnn
        subst this
        rw [hex]
        simp
      | false =>
        simp only [hnn, Bool.false_eq_true, if_false]
        exact ih n

theorem names_copyEntries : ∀ es : Entries,
    (copyEntries es).names = es.names.filter (fun n => !excludedName n) := by
  refine Entries.inductSib _ ?_ ?_
  · rfl
  · intro n t rest ih
    rw [copyEntries]
    cases hex : excludedName n with
    | true => simp [Entries.names, List.filter, hex, ih]
    | false => simp [Entries.names, List.filter, hex, ih]

/-- The immediate children of a copied node are exactly the source's
children minus the two excluded basenames. -/
theorem entryNames_copyTree : ∀ t : FsTree,
    entryNames (copyTree t) = (entryNames t).filter (fun n => !excludedName n) := by
  intro t
  cases t with
  | file c m => rw [copyTree]; rfl
  | dir es => rw [copyTree]; rw [entryNames, entryNames]; exact names_copyEntries es

/-- Along a path free of excluded names, the copy is the source's node,
copied. -/
theorem lookupTree_copyTree_clean : ∀ (p : List String) (t : FsTree),
    (∀ n ∈ p, excludedName n = false) →
    lookupTree (copyTree t) p = Option.map copyTree (lookupTree t p) := by
  intro p
  induction p with
  | nil => intro t _; rw [lookupTree_nil, lookupTree_nil]; rfl
  | cons n p' ih =>
    intro t hp
    cases t with
    | file c m =>
      rw [copyTree, lookupTree_file_cons]
      rfl
    | dir es =>
      rw [copyTree, lookupTree_dir_cons, lookupTree_dir_cons, find_copyEntries]
      have hn : excludedName n = false := hp n (by simp)
      rw [hn]
      simp only [Bool.false_eq_true, if_false]
      cases es.find n with
      | none => rfl
      | some child =>
        simp only [Option.map_some']
        exact ih child fun n' h' => hp n' (by simp [h'])

/-- A path through an excluded name does not exist in the copy. -/
theorem lookupTree_copyTree_excluded : ∀ (p : List String) (t : FsTree),
    (∃ n ∈ p, excludedName n = true) →
    lookupTree (copyTree t) p = none := by
  intro p
  induction p with
  | nil => rintro t ⟨n, hn, _⟩; cases hn
  | cons n p' ih =>
    rintro t ⟨n0, hn0, hex0⟩
    cases t with
    | file c m => rw [copyTree, lookupTree_file_cons]
    | dir es =>
      rw [copyTree, lookupTree_dir_cons, find_copyEntries]
      rcases List.mem_cons.mp hn0 with rfl | hmem
      · rw [hex0]; simp
      · cases hex : excludedName n with
        | true => rfl
        | false =>
          simp only [Bool.false_eq_true, if_false]
          cases es.find n with
          | none => rfl
          | some child =>
            simp only [Option.map_some']
            exact ih child ⟨n0, hmem, hex0⟩

/-! ## Lemmas: the substitution pipeline over the designated files -/

/-- The path currently holds a directory (Bool form). -/
def isDirAt (t : FsTree) (p : List String) : Bool :=
  match lookupTree t p with
  | some (.dir _) => true
  | _ => false

/-- The pairwise separation of the designated paths: none is an
ancestor-or-equal of another. -/
abbrev SepPaths (ps : List (List String)) : Prop :=
  List.Pairwise (fun p q => pathPfx p q = false ∧ pathPfx q p = false) ps

theorem processFiles_nil (cfg : List (Str × Str)) (now : Nat) (t : FsTree) :
    processFiles cfg now t [] = (t, none) := rfl

theorem processFiles_cons (cfg : List (Str × Str)) (now : Nat) (t : FsTree)
    (p : List String) (rest : List (List String)) :
    processFiles cfg now t (p :: rest) =
      match replaceInFile cfg now t p with
      | (t', none) => processFiles cfg now t' rest
      | (t', some e) => (t', some e) := rfl

/-- A file at a path not among the processed ones is untouched by the
whole pipeline. -/
theorem processFiles_preserves_file :
    ∀ (ps : List (List String)) (cfg : List (Str × Str)) (now : Nat) (t : FsTree)
      (q : List String) (c : Str) (m : Nat),
      lookupTree t q = some (.file c m) → (∀ p ∈ ps, p ≠ q) →
      lookupTree (processFiles cfg now t ps).1 q = some (.file c m) := by
  intro ps
  induction ps with
  | nil => intro cfg now t q c m h _; exact h
  | cons p rest ih =>
    intro cfg now t q c m h hne
    rw [processFiles_cons]
    rw [replaceInFile]
    cases hl : lookupTree t p with
    | none => exact ih cfg now t q c m h fun p' h' => hne p' (by simp [h'])
    | some node =>
      cases node with
      | dir es => exact h
      | file cp mp =>
        have hlq : lookupTree (writeTree t p (applyReplacements cfg cp) now) q
            = some (.file c m) := by
          cases hpq : pathPfx q p with
          | false => rw [lookupTree_writeTree_other q p t _ now hpq]; exact h
          | true =>
            obtain ⟨r, rfl⟩ := (pathPfx_iff q p).mp hpq
            cases r with
            | nil => exact absurd (by simp) (hne (q ++ []) (by simp))
            | cons x r' =>
              rw [lookupTree_append, h] at hl
              simp [lookupTree_file_cons] at hl
        exact ih cfg now _ q c m hlq fun p' h' => hne p' (by simp [h'])

theorem isDirAt_writeTree_other (q p : List String) (t : FsTree) (c : Str) (now : Nat)
    (h : pathPfx q p = false) : isDirAt (writeTree t p c now) q = isDirAt t q := by
  rw [isDirAt, isDirAt, lookupTree_writeTree_other q p t c now h]

/-- When no designated path holds a directory and the paths are pairwise
separated, the substitution loop raises no error. -/
theorem processFiles_no_error :
    ∀ (ps : List (List String)) (cfg : List (Str × Str)) (now : Nat) (t : FsTree),
      SepPaths ps → (∀ p ∈ ps, isDirAt t p = false) →
      (processFiles cfg now t ps).2 = none := by
  intro ps
  induction ps with
  | nil => intro cfg now t _ _; rfl
  | cons p rest ih =>
    intro cfg now t hsep hdir
    have hsep' := List.pairwise_cons.mp hsep
    rw [processFiles_cons, replaceInFile]
    cases hl : lookupTree t p with
    | none => exact ih cfg now t hsep'.2 fun p' h' => hdir p' (by simp [h'])
    | some node =>
      cases node with
      | dir es =>
        have : isDirAt t p = true := by rw [isDirAt, hl]
        rw [hdir p (by simp)] at this
        cases this
      | file cp mp =>
        refine ih cfg now _ hsep'.2 fun p' h' => ?_
        rw [isDirAt_writeTree_other p' p t _ now (hsep'.1 p' h').2]
        exact hdir p' (by simp [h'])

/-- Every designated path that holds a file ends up holding that file
with every replacement applied, stamped with the write time. -/
theorem processFiles_designated :
    ∀ (ps : List (List String)) (cfg : List (Str × Str)) (now : Nat) (t : FsTree)
      (p : List String) (c : Str) (m : Nat),
      SepPaths ps → (∀ p' ∈ ps, isDirAt t p' = false) →
      p ∈ ps → lookupTree t p = some (.file c m) →
      lookupTree (processFiles cfg now t ps).1 p =
        some (.file (applyReplacements cfg c) now) := by
  intro ps
  induction ps with
  | nil => intro cfg now t p c m _ _ hp _; cases hp
  | cons p0 rest ih =>
    intro cfg now t p c m hsep hdir hp h
    have hsep' := List.pairwise_cons.mp hsep
    rw [processFiles_cons, replaceInFile]
    rcases List.mem_cons.mp hp with heq | hmem
    · -- the head path: rewritten here, preserved afterwards
      subst heq
      rw [h]
      have hw := lookupTree_writeTree_self p t c m (applyReplacements cfg c) now h
      exact processFiles_preserves_file rest cfg now _ p _ now hw
        (fun p' h' => fun hcontra => by
          have := (hsep'.1 p' h').2
          rw [hcontra, pathPfx_refl] at this
          cases this)
    · cases hl : lookupTree t p0 with
      | none => exact ih cfg now t p c m hsep'.2 (fun p' h' => hdir p' (by simp [h'])) hmem h
      | some node =>
        cases node with
        | dir es =>
          have : isDirAt t p0 = true := by rw [isDirAt, hl]
          rw [hdir p0 (by simp)] at this
          cases this
        | file cp mp =>
          have hpp0 : pathPfx p p0 = false := (hsep'.1 p hmem).2
          refine ih cfg now _ p c m hsep'.2 (fun p' h' => ?_) hmem ?_
          · rw [isDirAt_writeTree_other p' p0 t _ now (hsep'.1 p' h').2]
            exact hdir p' (by simp [h'])
          · rw [lookupTree_writeTree_other p p0 t _ now hpp0]
            exact h

/-- A missing path stays missing through the whole loop. -/
theorem processFiles_missing :
    ∀ (ps : List (List String)) (cfg : List (Str × Str)) (now : Nat) (t : FsTree)
      (q : List String),
      lookupTree t q = none →
      lookupTree (processFiles cfg now t ps).1 q = none := by
  intro ps
  induction ps with
  | nil => intro cfg now t q h; exact h
  | cons p rest ih =>
    intro cfg now t q h
    rw [processFiles_cons, replaceInFile]
    cases hl : lookupTree t p with
    | none => exact ih cfg now t q h
    | some node =>
      cases node with
      | dir es => exact h
      | file cp mp =>
        exact ih cfg now _ q (lookupTree_writeTree_none q t p _ now h)

/-! ## Lemmas: timestamps and determinism -/

mutual
/-- Erase every mtime, keeping structure and contents: two trees equal
after `stripTimes` are byte-for-byte identical. -/
def stripTimes : FsTree → FsTree
  | .file c _ => .file c 0
  | .dir es => .dir (stripTimesE es)

def stripTimesE : Entries → Entries
  | .nil => .nil
  | .cons n t rest => .cons n (stripTimes t) (stripTimesE rest)
end

theorem find_stripTimesE : ∀ (es : Entries) (n : String),
    (stripTimesE es).find n = Option.map stripTimes (es.find n) := by
  refine Entries.inductSib _ ?_ ?_
  · intro n; rfl
  · intro n' t rest ih n
    rw [stripTimesE, Entries.find, Entries.find]
    cases h : n' == n with
    | true => simp [h]
    | false => simp only [h, Bool.false_eq_true, if_false]; exact ih n

theorem lookupTree_stripTimes : ∀ (p : List String) (t : FsTree),
    lookupTree (stripTimes t) p = Option.map stripTimes (lookupTree t p) := by
  intro p
  induction p with
  | nil => intro t; rw [lookupTree_nil, lookupTree_nil]; rfl
  | cons n p' ih =>
    intro t
    cases t with
    | file c m => rw [stripTimes, lookupTree_file_cons, lookupTree_file_cons]; rfl
    | dir es =>
      rw [stripTimes, lookupTree_dir_cons, lookupTree_dir_cons, find_stripTimesE]
      cases es.find n with
      | none => rfl
      | some child => simp only [Option.map_some']; exact ih child

theorem stripTimes_writeTree : ∀ (p : List String) (t : FsTree) (c : Str) (now : Nat),
    stripTimes (writeTree t p c now) = writeTree (stripTimes t) p c 0 := by
  intro p
  induction p with
  | nil =>
    intro t c now
    cases t with
    | file c0 m0 => rw [writeTree, stripTimes, stripTimes, writeTree]
    | dir es => rw [writeTree, stripTimes, writeTree]
  | cons n p' ih =>
    intro t c now
    have hE : ∀ es : Entries,
        stripTimesE (writeEntries es n p' c now) =
          writeEntries (stripTimesE es) n p' c 0 := by
      refine Entries.inductSib _ ?_ ?_
      · rw [writeEntries, stripTimesE, writeEntries]
      · intro n' t0 rest ihE
        rw [writeEntries, stripTimesE]
        cases h : n' == n with
        | true =>
          simp only [h, if_true]
          rw [stripTimesE, writeEntries]
          simp only [h, if_true]
          rw [ih t0 c now]
        | false =>
          simp only [h, Bool.false_eq_true, if_false]
          rw [stripTimesE, writeEntries]
          simp only [h, Bool.false_eq_true, if_false]
          rw [ihE]
    cases t with
    | file c0 m0 => rw [writeTree, stripTimes, writeTree]
    | dir es =>
      rw [writeTree, stripTimes, stripTimes, writeTree, hE es]

/-- The substitution pipeline is deterministic up to write-time stamps:
two runs over byte-identical trees, at different clock values, produce
byte-identical trees and the same error. -/
theorem processFiles_strip :
    ∀ (ps : List (List String)) (cfg : List (Str × Str)) (now1 now2 : Nat)
      (t1 t2 : FsTree),
      stripTimes t1 = stripTimes t2 →
      stripTimes (processFiles cfg now1 t1 ps).1 =
        stripTimes (processFiles cfg now2 t2 ps).1 ∧
      (processFiles cfg now1 t1 ps).2 = (processFiles cfg now2 t2 ps).2 := by
  intro ps
  induction ps with
  | nil => intro cfg now1 now2 t1 t2 h; exact ⟨h, rfl⟩
  | cons p rest ih =>
    intro cfg now1 now2 t1 t2 h
    rw [processFiles_cons, processFiles_cons, replaceInFile, replaceInFile]
    have hlook : Option.map stripTimes (lookupTree t1 p) =
        Option.map stripTimes (lookupTree t2 p) := by
      rw [← lookupTree_stripTimes, ← lookupTree_stripTimes, h]
    cases hl1 : lookupTree t1 p with
    | none =>
      cases hl2 : lookupTree t2 p with
      | none => exact ih cfg now1 now2 t1 t2 h
      | some node2 => rw [hl1, hl2] at hlook; cases hlook
    | some node1 =>
      cases hl2 : lookupTree t2 p with
      | none => rw [hl1, hl2] at hlook; cases hlook
      | some node2 =>
        rw [hl1, hl2] at hlook
        simp only [Option.map_some'] at hlook
        injection hlook with hnode
        cases node1 with
        | file c1 m1 =>
          cases node2 with
          | file c2 m2 =>
            rw [stripTimes, stripTimes] at hnode
            injection hnode with hc _
            subst hc
            refine ih cfg now1 now2 _ _ ?_
            rw [stripTimes_writeTree, stripTimes_writeTree, h]
          | dir es2 => rw [stripTimes, stripTimes] at hnode; cases hnode
        | dir es1 =>
          cases node2 with
          | file c2 m2 => rw [stripTimes, stripTimes] at hnode; cases hnode
          | dir es2 => exact ⟨h, rfl⟩

/-! ## Claim theorems -/

/-- No user-agent detection step fires: the variable is unset, empty, or
names none of the three managers. -/
def noUAMatchB (env : FsEnv) : Bool :=
  match env.userAgent with
  | none => true
  | some ua =>
    ua == "" ||
      (!hasInfix ua.data (strOf "yarn") && !hasInfix ua.data (strOf "pnpm") &&
        !hasInfix ua.data (strOf "npm"))

theorem detect_noUA (env : FsEnv) (h : noUAMatchB env = true) :
    detectPackageManager env none = detectFromLocks env := by
  cases hua : env.userAgent with
  | none => simp [detectPackageManager, hua]
  | some ua =>
    have h' : (ua == "" ||
        (!hasInfix ua.data (strOf "yarn") && !hasInfix ua.data (strOf "pnpm") &&
          !hasInfix ua.data (strOf "npm"))) = true := by
      rw [noUAMatchB, hua] at h
      exact h
    cases hempty : ua == "" with
    | true => simp [detectPackageManager, hua, hempty]
    | false =>
      rw [hempty] at h'
      simp only [Bool.false_or, Bool.and_eq_true, Bool.not_eq_true'] at h'
      simp [detectPackageManager, hua, hempty, h'.1.1, h'.1.2, h'.2]

/-- C5: `detectPackageManager` resolves in the order explicit choice >
user agent > lock files > default: an explicit manager is returned
verbatim regardless of everything else; with no explicit choice and no
user-agent match, only `yarn.lock` yields `yarn`, only `pnpm-lock.yaml`
yields `pnpm`, and no lock file yields the `npm` default. -/
theorem detectPackageManager_priority :
    (∀ (env : FsEnv) (pm : PM), detectPackageManager env (some pm) = pm) ∧
    (∀ env : FsEnv, noUAMatchB env = true → env.hasPnpmLock = false →
      env.hasYarnLock = true → env.hasNpmLock = false →
      detectPackageManager env none = .yarn) ∧
    (∀ env : FsEnv, noUAMatchB env = true → env.hasPnpmLock = true →
      env.hasYarnLock = false → env.hasNpmLock = false →
      detectPackageManager env none = .pnpm) ∧
    (∀ env : FsEnv, noUAMatchB env = true → env.hasPnpmLock = false →
      env.hasYarnLock = false → env.hasNpmLock = false →
      detectPackageManager env none = .npm) := by
  refine ⟨fun env pm => rfl, ?_, ?_, ?_⟩
  · intro env h h1 h2 h3
    rw [detect_noUA env h]
    simp [detectFromLocks, h1, h2]
  · intro env h h1 _ _
    rw [detect_noUA env h]
    simp [detectFromLocks, h1]
  · intro env h h1 h2 h3
    rw [detect_noUA env h]
    simp [detectFromLocks, h1, h2, h3]

/-- C5 witness: concrete environments exercising each clause. -/
theorem detectPackageManager_priority_witness :
    (detectPackageManager { userAgent := some "yarn/1.22.0", hasPnpmLock := true } (some .npm) = .npm) ∧
    (noUAMatchB { hasYarnLock := true } = true ∧
      detectPackageManager { hasYarnLock := true } none = .yarn) ∧
    (noUAMatchB { hasPnpmLock := true } = true ∧
      detectPackageManager { hasPnpmLock := true } none = .pnpm) ∧
    (noUAMatchB ({} : FsEnv) = true ∧
      detectPackageManager ({} : FsEnv) none = .npm) :=
  ⟨detectPackageManager_priority.1 _ .npm,
   ⟨by decide, detectPackageManager_priority.2.1 _ (by decide) rfl rfl rfl⟩,
   ⟨by decide, detectPackageManager_priority.2.2.1 _ (by decide) rfl rfl rfl⟩,
   ⟨by decide, detectPackageManager_priority.2.2.2 _ (by decide) rfl rfl rfl⟩⟩

/-- C10: among lock files the concrete priority is `pnpm-lock.yaml`,
then `yarn.lock`, then `package-lock.json`: with no explicit choice and
no user-agent match, `pnpm-lock.yaml` present wins regardless of the
other lock files, and `yarn.lock` without `pnpm-lock.yaml` wins
regardless of `package-lock.json`. -/
theorem detectPackageManager_lock_priority :
    (∀ env : FsEnv, noUAMatchB env = true → env.hasPnpmLock = true →
      detectPackageManager env none = .pnpm) ∧
    (∀ env : FsEnv, noUAMatchB env = true → env.hasPnpmLock = false →
      env.hasYarnLock = true → detectPackageManager env none = .yarn) := by
  constructor
  · intro env h h1
    rw [detect_noUA env h]
    simp [detectFromLocks, h1]
  · intro env h h1 h2
    rw [detect_noUA env h]
    simp [detectFromLocks, h1, h2]

/-- C10 witness: all three lock files present resolves to `pnpm`; yarn
and npm lock files together resolve to `yarn`. -/
theorem detectPackageManager_lock_priority_witness :
    (noUAMatchB { hasPnpmLock := true, hasYarnLock := true, hasNpmLock := true } = true ∧
      detectPackageManager { hasPnpmLock := true, hasYarnLock := true, hasNpmLock := true } none = .pnpm) ∧
    (noUAMatchB { hasYarnLock := true, hasNpmLock := true } = true ∧
      detectPackageManager { hasYarnLock := true, hasNpmLock := true } none = .yarn) :=
  ⟨⟨by decide, detectPackageManager_lock_priority.1 _ (by decide) rfl⟩,
   ⟨by decide, detectPackageManager_lock_priority.2 _ (by decide) rfl rfl⟩⟩

/-- C8: with `skipInstall` set, `runInstall` resolves immediately to
`{ success: true, packageManager: 'skipped' }` with `error` and
`logPath` unset, and performs no side effect at all — in particular it
spawns no child process. -/
theorem runInstall_skip (env : FsEnv) (options : InstallOptions) (exec : ExecOutcome)
    (logOk : Bool) (timestamp : String) (h : options.skipInstall = some true) :
    runInstall env options exec logOk timestamp =
      ({ success := true, packageManager := "skipped",
         error := none, logPath := none }, []) := by
  rw [runInstall, h]
  rfl

/-- C8 witness. -/
theorem runInstall_skip_witness :
    runInstall {} { cwd := "/test", skipInstall := some true } .ok true "2024-01-01" =
      ({ success := true, packageManager := "skipped",
         error := none, logPath := none }, []) :=
  runInstall_skip {} { cwd := "/test", skipInstall := some true } .ok true "2024-01-01" rfl

/-- Shared unfolding: with `useTs` false, `scaffold` returns the variant
error immediately. -/
theorem scaffold_js_eq (o : ScaffoldOptions) (cwd : String) (template : FsTree)
    (now : Nat) (exec : ExecOutcome) (env : FsEnv) (logOk : Bool) (timestamp : String)
    (disk : Disk) (h : o.useTs = false) :
    scaffold o cwd template now exec env logOk timestamp disk =
      (disk, some "JavaScript support is coming soon! Please use TypeScript for now.",
       none) := by
  rw [scaffold, h]
  rfl

/-- C7: the JavaScript variant is rejected up front: `scaffold` with
`useTs` false throws the "coming soon" error, touches nothing on disk,
and never reaches the install step. -/
theorem scaffold_js_rejected (o : ScaffoldOptions) (cwd : String) (template : FsTree)
    (now : Nat) (exec : ExecOutcome) (env : FsEnv) (logOk : Bool) (timestamp : String)
    (disk : Disk) (h : o.useTs = false) :
    scaffold o cwd template now exec env logOk timestamp disk =
      (disk, some "JavaScript support is coming soon! Please use TypeScript for now.",
       none) :=
  scaffold_js_eq o cwd template now exec env logOk timestamp disk h

/-- C7 witness. -/
theorem scaffold_js_rejected_witness :
    scaffold { appName := "demo", useTs := false } "/w" (.dir .nil) 0 .ok {} true "T" [] =
      ([], some "JavaScript support is coming soon! Please use TypeScript for now.",
       none) :=
  scaffold_js_rejected { appName := "demo", useTs := false } "/w" (.dir .nil) 0 .ok {}
    true "T" [] rfl

/-- C1 (amended): an existing target always aborts `scaffold` before any
filesystem write — the disk is returned unchanged and the installer is
never invoked. When the request also selects the implemented variant
(`useTs`), the error is precisely the "already exists" one; with `useTs`
false the variant error fires first instead. -/
theorem scaffold_target_exists (o : ScaffoldOptions) (cwd : String) (template : FsTree)
    (now : Nat) (exec : ExecOutcome) (env : FsEnv) (logOk : Bool) (timestamp : String)
    (disk : Disk)
    (hex : (List.lookup (cwd ++ "/" ++ o.appName) disk).isSome = true) :
    (o.useTs = true →
      scaffold o cwd template now exec env logOk timestamp disk =
        (disk, some ("Directory \"" ++ o.appName ++ "\" already exists."), none)) ∧
    (∃ msg, scaffold o cwd template now exec env logOk timestamp disk =
      (disk, some msg, none)) := by
  constructor
  · intro huts
    rw [scaffold, huts]
    simp [hex]
  · cases huts : o.useTs with
    | false =>
      exact ⟨_, scaffold_js_eq o cwd template now exec env logOk timestamp disk huts⟩
    | true =>
      refine ⟨"Directory \"" ++ o.appName ++ "\" already exists.", ?_⟩
      rw [scaffold, huts]
      simp [hex]

/-- C1 witness: an existing target with the implemented variant yields
exactly the "already exists" error, unchanged disk, no install. -/
theorem scaffold_target_exists_witness :
    (List.lookup ("/w" ++ "/" ++ "demo") [("/w/demo", FsTree.dir .nil)]).isSome = true ∧
    scaffold { appName := "demo", useTs := true } "/w" (.dir .nil) 0 .ok {} true "T"
        [("/w/demo", FsTree.dir .nil)] =
      ([("/w/demo", FsTree.dir .nil)],
       some ("Directory \"" ++ "demo" ++ "\" already exists."), none) :=
  ⟨by decide,
   (scaffold_target_exists { appName := "demo", useTs := true } "/w" (.dir .nil) 0 .ok {}
      true "T" [("/w/demo", FsTree.dir .nil)] (by decide)).1 rfl⟩

/-- C1 counterexample to the claim as stated: with the target existing
but `useTs` false, `scaffold` fails with the variant error, not an
"already exists" error (it still writes nothing). -/
theorem scaffold_target_exists_counterexample :
    (List.lookup ("/w" ++ "/" ++ "demo") [("/w/demo", FsTree.dir .nil)]).isSome = true ∧
    scaffold { appName := "demo", useTs := false } "/w" (.dir .nil) 0 .ok {} true "T"
        [("/w/demo", FsTree.dir .nil)] =
      ([("/w/demo", FsTree.dir .nil)],
       some "JavaScript support is coming soon! Please use TypeScript for now.", none) ∧
    ("JavaScript support is coming soon! Please use TypeScript for now." ≠
      ("Directory \"" ++ "demo" ++ "\" already exists.")) := by
  refine ⟨by decide, ?_, by decide⟩
  exact scaffold_js_eq { appName := "demo", useTs := false } "/w" (.dir .nil) 0 .ok
    {} true "T" [("/w/demo", FsTree.dir .nil)] rfl

/-! ## C4: the placeholder map against its specification -/

/-- Spec side, C4 amended: an endpoint placeholder maps to the given
override or, when the override is unset or empty, to the built-in
default. -/
def specEndpointValue (override : Option String) (dflt : String) : String :=
  match override with
  | none => dflt
  | some s => if s = "" then dflt else s

/-- Spec side: `{{NETWORK}}` is `"PUBLIC"` iff a horizon URL is supplied
and contains the substring `"public"`, else `"TESTNET"`. -/
def specNetworkValue (horizonUrl : Option String) : String :=
  match horizonUrl with
  | none => "TESTNET"
  | some s => if hasInfix s.data (strOf "public") then "PUBLIC" else "TESTNET"

/-- Spec side: `{{WALLETS}}` is the JSON serialization of the wallet
list, or of the fixed three-element default when empty or absent. -/
def specWalletsValue (wallets : Option (List String)) : Str :=
  match wallets with
  | none => jsonArr ["freighter", "albedo", "lobstr"]
  | some [] => jsonArr ["freighter", "albedo", "lobstr"]
  | some (w :: ws) => jsonArr (w :: ws)

theorem networkValue_spec (v : Option String) : networkValue v = specNetworkValue v := by
  cases v with
  | none => rfl
  | some s =>
    rw [networkValue, specNetworkValue]
    by_cases hs : s = ""
    · subst hs
      have hpub : hasInfix "".data (strOf "public") = false := by decide
      simp [hpub]
    · have hbeq : (s == "") = false := beq_eq_false_iff_ne.mpr hs
      simp [hbeq]

theorem walletsValue_spec (w : Option (List String)) :
    walletsValue w = specWalletsValue w := by
  cases w with
  | none => rfl
  | some l =>
    cases l with
    | nil => simp [walletsValue, specWalletsValue]
    | cons x xs => simp [walletsValue, specWalletsValue]

/-- C4 (amended): the placeholder map is derived from the request
exactly as specified — app name verbatim; the two endpoints from their
overrides, falling back to the testnet defaults when unset *or empty*;
the network marker iff the horizon URL contains "public"; the wallets
as JSON, with the fixed three-element default for an empty or absent
list. -/
theorem scaffoldConfig_spec (o : ScaffoldOptions) :
    scaffoldConfig o =
      [(strOf "{{APP_NAME}}", strOf o.appName),
       (strOf "{{HORIZON_URL}}",
         strOf (specEndpointValue o.horizonUrl "https://horizon-testnet.stellar.org")),
       (strOf "{{SOROBAN_URL}}",
         strOf (specEndpointValue o.sorobanUrl "https://soroban-testnet.stellar.org")),
       (strOf "{{NETWORK}}", strOf (specNetworkValue o.horizonUrl)),
       (strOf "{{WALLETS}}", specWalletsValue o.wallets)] := by
  rw [scaffoldConfig, networkValue_spec, walletsValue_spec]
  rfl

/-- C4 counterexample to the claim as stated: a supplied-but-empty
horizon override is replaced by the built-in default, not by the given
override. -/
theorem scaffoldConfig_counterexample :
    List.lookup (strOf "{{HORIZON_URL}}")
        (scaffoldConfig { appName := "a", useTs := true, horizonUrl := some "" }) =
      some (strOf "https://horizon-testnet.stellar.org") ∧
    strOf "https://horizon-testnet.stellar.org" ≠ strOf "" := by
  constructor
  · decide
  · decide

/-! ## C6: the failure outcome of `runInstall` -/

theorem runInstall_err (env : FsEnv) (options : InstallOptions) (e : ExecErr)
    (logOk : Bool) (timestamp : String)
    (hskip : options.skipInstall.getD false = false) :
    runInstall env options (.err e) logOk timestamp =
      ({ success := false,
         packageManager := (detectPackageManager env options.packageManager).name,
         error := some (jsOrS e.message "Installation failed"),
         logPath := (saveInstallLog options.cwd e
           (detectPackageManager env options.packageManager).name timestamp logOk).1 },
       .spawn (getInstallCommand (detectPackageManager env options.packageManager)).1
           (getInstallCommand (detectPackageManager env options.packageManager)).2
           options.cwd
         :: (saveInstallLog options.cwd e
           (detectPackageManager env options.packageManager).name timestamp logOk).2) := by
  rw [runInstall, hskip]
  rfl

/-- The literal error message appears in the log body whenever it is
non-empty. -/
theorem message_in_log (cwd : String) (e : ExecErr) (pm ts : String)
    (hm : e.message ≠ "") :
    IsInf (strOf e.message) (strOf (installLogContent cwd e pm ts)) := by
  have hmem : (jsOrS e.message "Unknown error").data ∈
      (installLogLines cwd e pm ts).map String.data :=
    List.mem_map_of_mem String.data (by rw [installLogLines]; simp)
  have h1 := isInf_of_mem_joinSep (strOf "\n") _ _ hmem
  simp only [jsOrS, if_neg hm] at h1
  exact h1

/-- C6 (amended): a failing install never throws: it yields an outcome
with `success` false and a non-empty error message; when the log write
succeeds, `logPath` is `<cwd>/.nextellar/install.log` and — provided the
underlying error carried a non-empty message — the written log body
contains that message verbatim; when the log write fails, the same
failure outcome is returned with `logPath` unset and nothing written. -/
theorem runInstall_failure (env : FsEnv) (options : InstallOptions) (e : ExecErr)
    (logOk : Bool) (timestamp : String)
    (hskip : options.skipInstall.getD false = false) :
    (runInstall env options (.err e) logOk timestamp).1.success = false ∧
    (∃ m, (runInstall env options (.err e) logOk timestamp).1.error = some m ∧ m ≠ "") ∧
    (logOk = true →
      (runInstall env options (.err e) logOk timestamp).1.logPath =
        some (options.cwd ++ "/.nextellar/install.log") ∧
      (e.message ≠ "" →
        ∃ content,
          Event.writeLog [".nextellar", "install.log"] content ∈
            (runInstall env options (.err e) logOk timestamp).2 ∧
          IsInf (strOf e.message) (strOf content))) ∧
    (logOk = false →
      (runInstall env options (.err e) logOk timestamp).1.logPath = none ∧
      ∀ p c, Event.writeLog p c ∉ (runInstall env options (.err e) logOk timestamp).2) := by
  rw [runInstall_err env options e logOk timestamp hskip]
  refine ⟨rfl, ⟨jsOrS e.message "Installation failed", rfl, ?_⟩, ?_, ?_⟩
  · by_cases hm : e.message = ""
    · rw [jsOrS, if_pos hm]
      decide
    · rw [jsOrS, if_neg hm]
      exact hm
  · intro hlog
    subst hlog
    rw [saveInstallLog]
    refine ⟨rfl, fun hm => ?_⟩
    refine ⟨installLogContent options.cwd e
      (detectPackageManager env options.packageManager).name timestamp, ?_, ?_⟩
    · simp [saveInstallLog]
    · exact message_in_log options.cwd e _ timestamp hm
  · intro hlog
    subst hlog
    rw [saveInstallLog]
    exact ⟨rfl, fun p c => by simp [saveInstallLog]⟩

/-- C6 witness: a concrete failing install with a successful log write. -/
theorem runInstall_failure_witness :
    (({ cwd := "/x" } : InstallOptions).skipInstall.getD false = false) ∧
    (runInstall {} { cwd := "/x" } (.err { message := "boom" }) true "T").1.success = false ∧
    (runInstall {} { cwd := "/x" } (.err { message := "boom" }) true "T").1.logPath =
      some ("/x" ++ "/.nextellar/install.log") :=
  ⟨rfl,
   (runInstall_failure {} { cwd := "/x" } { message := "boom" } true "T" rfl).1,
   ((runInstall_failure {} { cwd := "/x" } { message := "boom" } true "T" rfl).2.2.1 rfl).1⟩

/-- C6 counterexample to the claim as stated: an error with an empty
message yields outcome error "Installation failed", but the written log
body records "Unknown error" and does not contain the outcome's literal
error message text. -/
theorem runInstall_failure_counterexample :
    (runInstall {} { cwd := "/x" } (.err { message := "" }) true "T").1.error =
      some "Installation failed" ∧
    (runInstall {} { cwd := "/x" } (.err { message := "" }) true "T").2 =
      [.spawn "npm" ["install", "--no-audit", "--no-fund"] "/x",
       .writeLog [".nextellar", "install.log"]
         (installLogContent "/x" { message := "" } "npm" "T")] ∧
    hasInfix (strOf (installLogContent "/x" { message := "" } "npm" "T"))
      (strOf "Installation failed") = false := by
  refine ⟨?_, ?_, ?_⟩
  · rfl
  · rfl
  · decide

/-! ## C9: determinism of materialisation -/

/-- C9: `materialize` is deterministic in its output tree: two runs with
the same request and template — at different wall-clock times, hence
against different fresh target paths — produce byte-for-byte identical
trees (equal after erasing mtimes, with identical structure and file
contents) and the same error behaviour. -/
theorem materialize_deterministic (o : ScaffoldOptions) (template : FsTree)
    (now1 now2 : Nat) :
    stripTimes (materializeTree o template now1).1 =
      stripTimes (materializeTree o template now2).1 ∧
    (materializeTree o template now1).2 = (materializeTree o template now2).2 := by
  rw [materializeTree, materializeTree]
  exact processFiles_strip filesToProcess (scaffoldConfig o) now1 now2 _ _ rfl

/-! ## C2: the copy phase -/

/-- C2: the copy phase produces, at every depth, exactly the template's
entries minus those whose basename is `.git` or `node_modules`, with
files (contents and timestamps) preserved; and the materialisation is
this copy followed by the substitution pass. -/
theorem copy_phase_filter (template : FsTree) :
    (∀ p : List String, (∀ n ∈ p, excludedName n = false) →
      lookupTree (copyTree template) p = Option.map copyTree (lookupTree template p)) ∧
    (∀ p : List String, (∃ n ∈ p, excludedName n = true) →
      lookupTree (copyTree template) p = none) ∧
    (∀ (p : List String) (sub : FsTree),
      lookupTree (copyTree template) p = some sub →
      ∃ src, lookupTree template p = some src ∧
        entryNames sub = (entryNames src).filter (fun n => !excludedName n) ∧
        ∀ c m, src = .file c m → sub = .file c m) ∧
    (∀ (o : ScaffoldOptions) (now : Nat),
      materializeTree o template now =
        processFiles (scaffoldConfig o) now (copyTree template) filesToProcess) := by
  refine ⟨fun p hp => lookupTree_copyTree_clean p template hp,
    fun p hp => lookupTree_copyTree_excluded p template hp, ?_, fun o now => rfl⟩
  intro p sub hsub
  cases hany : p.any excludedName with
  | true =>
    obtain ⟨n, hn, hex⟩ := List.any_eq_true.mp hany
    rw [lookupTree_copyTree_excluded p template ⟨n, hn, hex⟩] at hsub
    cases hsub
  | false =>
    have hclean : ∀ n ∈ p, excludedName n = false := by
      intro n hn
      cases hx : excludedName n with
      | false => rfl
      | true => exact absurd (List.any_eq_true.mpr ⟨n, hn, hx⟩) (by rw [hany]; simp)
    rw [lookupTree_copyTree_clean p template hclean] at hsub
    cases hl : lookupTree template p with
    | none => rw [hl] at hsub; cases hsub
    | some src =>
      rw [hl] at hsub
      simp only [Option.map_some'] at hsub
      injection hsub with hsub
      refine ⟨src, rfl, ?_, ?_⟩
      · rw [← hsub]; exact entryNames_copyTree src
      · rintro c m rfl
        rw [← hsub, copyTree]

/-- C2 witness: a template with a `.git` directory, a `node_modules`
directory and a source directory; the copy keeps only the latter. -/
theorem copy_phase_filter_witness :
    (∀ n ∈ ["src"], excludedName n = false) ∧
    lookupTree
        (copyTree (.dir (.cons ".git" (.dir .nil)
          (.cons "node_modules" (.dir .nil)
            (.cons "src" (.dir (.cons "a.txt" (.file (strOf "hi") 7) .nil)) .nil)))))
        ["src"] =
      Option.map copyTree
        (lookupTree (.dir (.cons ".git" (.dir .nil)
          (.cons "node_modules" (.dir .nil)
            (.cons "src" (.dir (.cons "a.txt" (.file (strOf "hi") 7) .nil)) .nil))))
        ["src"]) ∧
    (∃ n ∈ [".git"], excludedName n = true) ∧
    lookupTree
        (copyTree (.dir (.cons ".git" (.dir .nil)
          (.cons "node_modules" (.dir .nil)
            (.cons "src" (.dir (.cons "a.txt" (.file (strOf "hi") 7) .nil)) .nil)))))
        [".git"] = none :=
  ⟨by decide,
   (copy_phase_filter _).1 ["src"] (by decide),
   by decide,
   (copy_phase_filter _).2.1 [".git"] (by decide)⟩

/-! ## C3: substitution in the designated files -/

/-- C3 (amended): provided every value of the derived placeholder map is
brace-free and not a fragment of any token — which the counterexample
shows is necessary — the substitution phase behaves as specified:
a missing designated file is silently skipped; when no designated path
holds a directory, the phase raises no error, rewrites every existing
designated file by applying the full map in order so that no occurrence
of any known token remains, leaves a designated file whose content held
no known token byte-identical, and leaves every file outside the
designated list byte-identical to the copy. -/
theorem substitution_designated (o : ScaffoldOptions) (template : FsTree) (now : Nat)
    (hsafe : safeCfgB (scaffoldConfig o) = true) :
    (∀ p : List String, lookupTree (copyTree template) p = none →
      replaceInFile (scaffoldConfig o) now (copyTree template) p =
        (copyTree template, none)) ∧
    ((∀ p ∈ filesToProcess, isDirAt (copyTree template) p = false) →
      (materializeTree o template now).2 = none ∧
      (∀ p ∈ filesToProcess, ∀ (c : Str) (m : Nat),
        lookupTree (copyTree template) p = some (.file c m) →
        lookupTree (materializeTree o template now).1 p =
          some (.file (applyReplacements (scaffoldConfig o) c) now) ∧
        (∀ kv ∈ scaffoldConfig o, ¬ IsInf kv.1 (applyReplacements (scaffoldConfig o) c)) ∧
        ((∀ kv ∈ scaffoldConfig o, ¬ IsInf kv.1 c) →
          applyReplacements (scaffoldConfig o) c = c)) ∧
      (∀ (q : List String) (c : Str) (m : Nat), q ∉ filesToProcess →
        lookupTree (copyTree template) q = some (.file c m) →
        lookupTree (materializeTree o template now).1 q = some (.file c m))) := by
  have hsep : SepPaths filesToProcess := by decide
  constructor
  · intro p h
    rw [replaceInFile, h]
  · intro hdir
    refine ⟨processFiles_no_error filesToProcess (scaffoldConfig o) now
      (copyTree template) hsep hdir, ?_, ?_⟩
    · intro p hp c m hlook
      refine ⟨?_, ?_, ?_⟩
      · exact processFiles_designated filesToProcess (scaffoldConfig o) now
          (copyTree template) p c m hsep hdir hp hlook
      · exact safeCfgB_removes hsafe c
      · exact applyReplacements_of_no_tokens (scaffoldConfig o) c
    · intro q c m hq hlook
      exact processFiles_preserves_file filesToProcess (scaffoldConfig o) now
        (copyTree template) q c m hlook (fun p hp heq => hq (heq ▸ hp))

/-- C3 witness: the default request on a template holding one designated
file; the safety condition holds, no error is raised, and the token is
substituted away. -/
theorem substitution_designated_witness :
    safeCfgB (scaffoldConfig { appName := "demo", useTs := true }) = true ∧
    (∀ p ∈ filesToProcess,
      isDirAt (copyTree (.dir (.cons "package.json"
        (.file (strOf "w: {{WALLETS}}") 5) .nil))) p = false) ∧
    (materializeTree { appName := "demo", useTs := true }
      (.dir (.cons "package.json" (.file (strOf "w: {{WALLETS}}") 5) .nil)) 5).2 = none :=
  ⟨by decide, by decide,
   ((substitution_designated { appName := "demo", useTs := true }
      (.dir (.cons "package.json" (.file (strOf "w: {{WALLETS}}") 5) .nil)) 5
      (by decide)).2 (by decide)).1⟩

/-- C3 counterexample to the claim as stated: a wallet identifier that
is itself a known token survives substitution — the `{{WALLETS}}` value
is injected last, so the `{{APP_NAME}}` occurrence it carries remains in
the designated file. -/
theorem substitution_designated_counterexample :
    lookupTree
        (materializeTree
          { appName := "demo", useTs := true, wallets := some ["{{APP_NAME}}"] }
          (.dir (.cons "package.json"
            (.file (strOf "const INJECTED_WALLETS: string[] = {{WALLETS}};") 1) .nil))
          1).1
        ["package.json"] =
      some (.file (strOf "const INJECTED_WALLETS: string[] = [\"{{APP_NAME}}\"];") 1) ∧
    hasInfix (strOf "const INJECTED_WALLETS: string[] = [\"{{APP_NAME}}\"];")
      (strOf "{{APP_NAME}}") = true := by
  constructor
  · decide
  · decide

end Nextellar
